import Mathlib

/-!
Verification development for the IQmol basis-set container (`Data/ShellList.C`).

The C++ code is shallowly embedded: `double` becomes `ℚ` (exact field
arithmetic), `unsigned` becomes `Nat` with explicit `% 2^32` where wraparound
matters, Qt lists become `List`, and the external `Shell` capability is an
abstract record exposing exactly what `ShellList` consumes (kind, atom index,
point evaluation returning `none` for insignificant points, bounding box).
-/

namespace IQmol

/-- Angular-momentum kinds of a shell, as in `Data::Shell`. -/
inductive ShellKind
  | S | P | D5 | D6 | F7 | F10 | G9 | G15
  deriving DecidableEq, Repr

/-- Number of basis functions contributed by each kind (the tally used in
`ShellList::dump` and reported by `Shell::nBasis`). -/
def ShellKind.nBasis : ShellKind → Nat
  | .S => 1
  | .P => 3
  | .D5 => 5
  | .D6 => 6
  | .F7 => 7
  | .F10 => 10
  | .G9 => 9
  | .G15 => 15

/-- A 3D point with rational coordinates (embedding `qglviewer::Vec`). -/
structure Vec3 where
  x : ℚ
  y : ℚ
  z : ℚ
  deriving DecidableEq, Repr

/-- Arguments passed to the external `Data::Shell` constructor by
`ShellList::ShellList`: kind, 0-based atom index, atom position,
unit-converted exponents and contraction coefficients. -/
structure ShellSpec where
  kind : ShellKind
  atom : Nat
  pos : Vec3
  expts : List ℚ
  coefs : List ℚ
  deriving DecidableEq, Repr

/-- The raw record (`ShellData`) consumed by the `ShellList` constructor. -/
structure ShellData where
  shellTypes : List Int
  shellToAtom : List Nat
  shellPrimitives : List Nat
  exponents : List ℚ
  contractionCoefficients : List ℚ
  contractionCoefficientsSP : List ℚ
  overlapMatrix : List ℚ

/-- Running primitive counter `cnt` at the start of entry `s`: the loop
advances `cnt` by `shellPrimitives.at(shell)` for every earlier entry,
regardless of the entry's type code. -/
def primStart (data : ShellData) (s : Nat) : Nat :=
  ((data.shellPrimitives.take s).sum)

/-- The 0-based atom index of entry `s` (`shellToAtom.at(shell) - 1`). -/
def entryAtom (data : ShellData) (s : Nat) : Nat :=
  data.shellToAtom.getD s 0 - 1

/-- Exponents of entry `s`, converted by multiplication with `conv`
(which stands for `pow(BohrToAngstrom, -2.0)`). -/
def entryExpts (conv : ℚ) (data : ShellData) (s : Nat) : List ℚ :=
  (((data.exponents.drop (primStart data s)).take (data.shellPrimitives.getD s 0)).map
    (fun e => e * conv))

/-- Primary contraction coefficients of entry `s`. -/
def entryCoefs (data : ShellData) (s : Nat) : List ℚ :=
  ((data.contractionCoefficients.drop (primStart data s)).take (data.shellPrimitives.getD s 0))

/-- SP contraction coefficients of entry `s`; the loop appends them only when
the SP coefficient array is non-empty. -/
def entryCoefsSP (data : ShellData) (s : Nat) : List ℚ :=
  if data.contractionCoefficientsSP.isEmpty then []
  else ((data.contractionCoefficientsSP.drop (primStart data s)).take
    (data.shellPrimitives.getD s 0))

/-- The diagnostic message emitted for an unrecognized type code. -/
def unknownTypeMsg (s : Nat) (c : Int) : String :=
  "Unknown Shell type found at position " ++ toString s ++ ", type: " ++ toString c

/-- Shells appended and diagnostics emitted for raw entry `s`: the `switch` on
`shellData.shellTypes.at(shell)` in the `ShellList` constructor. -/
def entryOut (conv : ℚ) (data : ShellData) (geom : Nat → Vec3) (s : Nat) :
    List ShellSpec × List String :=
  let atom := entryAtom data s
  let pos := geom atom
  let expts := entryExpts conv data s
  let coefs := entryCoefs data s
  let coefsSP := entryCoefsSP data s
  let t := data.shellTypes.getD s 0
  if t = 0 then ([⟨.S, atom, pos, expts, coefs⟩], [])
  else if t = -1 then
    ([⟨.S, atom, pos, expts, coefs⟩, ⟨.P, atom, pos, expts, coefsSP⟩], [])
  else if t = 1 then ([⟨.P, atom, pos, expts, coefs⟩], [])
  else if t = -2 then ([⟨.D5, atom, pos, expts, coefs⟩], [])
  else if t = 2 then ([⟨.D6, atom, pos, expts, coefs⟩], [])
  else if t = -3 then ([⟨.F7, atom, pos, expts, coefs⟩], [])
  else if t = 3 then ([⟨.F10, atom, pos, expts, coefs⟩], [])
  else if t = -4 then ([⟨.G9, atom, pos, expts, coefs⟩], [])
  else if t = 4 then ([⟨.G15, atom, pos, expts, coefs⟩], [])
  else ([], [unknownTypeMsg s t])

/-- All shells built by the constructor loop, in order. -/
def buildShells (conv : ℚ) (data : ShellData) (geom : Nat → Vec3) : List ShellSpec :=
  (List.range data.shellTypes.length).flatMap (fun s => (entryOut conv data geom s).1)

/-- All diagnostics emitted by the constructor loop, in order. -/
def buildLog (conv : ℚ) (data : ShellData) (geom : Nat → Vec3) : List String :=
  (List.range data.shellTypes.length).flatMap (fun s => (entryOut conv data geom s).2)

/-- Total basis-function count of a built shell list (`ShellList::nBasis`). -/
def specNBasis (shells : List ShellSpec) : Nat :=
  (shells.map (fun sh => sh.kind.nBasis)).sum

/-- Post-construction state of a `ShellList`: the shells, the (possibly
discarded) overlap matrix, and the emitted diagnostics. -/
structure ShellListState where
  shells : List ShellSpec
  overlap : Option (List ℚ)
  log : List String

/-- The `ShellList` constructor: build all shells, then retain the overlap
matrix only when its size equals `(n+1)*n/2` for the post-construction basis
count `n`. -/
def mkShellList (conv : ℚ) (data : ShellData) (geom : Nat → Vec3) : ShellListState :=
  let shells := buildShells conv data geom
  let n := specNBasis shells
  { shells := shells
    overlap := if data.overlapMatrix.length = (n + 1) * n / 2 then
        some data.overlapMatrix else none
    log := buildLog conv data geom }

/-- Replace the type code of entry `s` in a raw record. -/
def setShellType (data : ShellData) (s : Nat) (c : Int) : ShellData :=
  { data with shellTypes := data.shellTypes.set s c }

/-- Spec-side table from §4.1: kinds produced for each type code. -/
def codeKinds (c : Int) : List ShellKind :=
  if c = 0 then [.S]
  else if c = -1 then [.S, .P]
  else if c = 1 then [.P]
  else if c = -2 then [.D5]
  else if c = 2 then [.D6]
  else if c = -3 then [.F7]
  else if c = 3 then [.F10]
  else if c = -4 then [.G9]
  else if c = 4 then [.G15]
  else []

/-- Loop body of `ShellList::shellAtomOffsets`: `k` is the shell counter and
`atomIndex` the expected atom index. -/
def shellAtomOffsetsGo : List Nat → Nat → Nat → List Nat
  | [], _, _ => []
  | a :: rest, k, atomIndex =>
    if a ≠ atomIndex then k :: shellAtomOffsetsGo rest (k + 1) (atomIndex + 1)
    else shellAtomOffsetsGo rest (k + 1) atomIndex

/-- `ShellList::shellAtomOffsets` over the sequence of shell atom indices. -/
def shellAtomOffsets (atoms : List Nat) : List Nat :=
  0 :: shellAtomOffsetsGo atoms 0 0

/-- The external `Data::Shell` capability as consumed by the evaluation
engine: kind, owning atom index, point evaluation (`nullptr` becomes `none`),
and a bounding box per significance threshold.  The contract that a non-null
evaluation is a dense array of length `nBasis` is carried as an invariant. -/
structure Shell where
  kind : ShellKind
  atom : Nat
  eval : ℚ → ℚ → ℚ → Option (List ℚ)
  bbox : ℚ → Vec3 × Vec3
  eval_len : ∀ x y z vs, eval x y z = some vs → vs.length = kind.nBasis

/-- Basis-function count of a shell, fixed by its kind. -/
def Shell.nBasis (sh : Shell) : Nat := sh.kind.nBasis

/-- `ShellList::nBasis` over abstract shells: sum of per-shell counts. -/
def nBasisTotal (shells : List Shell) : Nat :=
  (shells.map Shell.nBasis).sum

/-- `ShellList::shellValues(x,y,z)`: per shell, copy the `nBasis` evaluated
values at the shell's global offset, or zero-fill the slice when the shell
evaluates null. -/
def shellValuesXYZ : List Shell → ℚ → ℚ → ℚ → List ℚ
  | [], _, _, _ => []
  | sh :: rest, x, y, z =>
    (match sh.eval x y z with
     | some vs => (List.range sh.nBasis).map (fun s => vs.getD s 0)
     | none => (List.range sh.nBasis).map (fun _ => (0 : ℚ))) ++
    shellValuesXYZ rest x y z

/-- Significance-scanning pass of `ShellList::densityValues`: for each shell
evaluating non-null, record each value paired with its global basis index
(`m_basisValues[nSigBas]` and `m_sigBasis[nSigBas]`); a null-evaluating shell
only advances the offset accumulator `basoff`. -/
def sigScan : List Shell → ℚ → ℚ → ℚ → Nat → List (ℚ × Nat)
  | [], _, _, _, _ => []
  | sh :: rest, x, y, z, basoff =>
    match sh.eval x y z with
    | some vs =>
      ((List.range sh.nBasis).map (fun i => (vs.getD i 0, basoff + i))) ++
      sigScan rest x y z (basoff + sh.nBasis)
    | none => sigScan rest x y z (basoff + sh.nBasis)

/-- Accumulate `c * D_k[idx]` into every density output slot (the innermost
`for (k < nden)` loops of `ShellList::densityValues`). -/
def addScaled (out : List ℚ) (dens : List (List ℚ)) (c : ℚ) (idx : Nat) : List ℚ :=
  List.zipWith (fun o Dk => o + c * Dk.getD idx 0) out dens

/-- Body of the outer `i` loop of `ShellList::densityValues`: off-diagonal
contributions `2*xij*D[Ti+jj]` with `xij = 2*xi*xj` for `j < i`, then the
diagonal contribution `xi*xi*D[Ti+ii]`. -/
def densityRow (dens : List (List ℚ)) (sig : List (ℚ × Nat)) (i : Nat)
    (out : List ℚ) : List ℚ :=
  let xi := (sig.getD i (0, 0)).1
  let ii := (sig.getD i (0, 0)).2
  let Ti := ii * (ii + 1) / 2
  let out1 := (List.range i).foldl
    (fun o j =>
      addScaled o dens (2 * (2 * xi * (sig.getD j (0, 0)).1))
        (Ti + (sig.getD j (0, 0)).2)) out
  addScaled out1 dens (xi * xi) (Ti + ii)

/-- `ShellList::densityValues(x,y,z)`: significance scan, zero the output
buffer, then accumulate all rows for every bound density matrix. -/
def densityValues (shells : List Shell) (dens : List (List ℚ)) (x y z : ℚ) :
    List ℚ :=
  let sig := sigScan shells x y z 0
  (List.range sig.length).foldl (fun out i => densityRow dens sig i out)
    (List.replicate dens.length 0)

/-- Spec-side row term of the restricted quadratic form (§4.7): writing
`(xi, ii)` for the `i`-th significant entry and `Ti = ii*(ii+1)/2`, the sum of
`2*(2*xi*xj)*D[Ti+jj]` over `j < i` plus the diagonal `xi*xi*D[Ti+ii]`. -/
def densityRowTerm (Dk : List ℚ) (sig : List (ℚ × Nat)) (i : Nat) : ℚ :=
  (((List.range i).map (fun j =>
      2 * (2 * (sig.getD i (0, 0)).1 * (sig.getD j (0, 0)).1) *
        Dk.getD ((sig.getD i (0, 0)).2 * ((sig.getD i (0, 0)).2 + 1) / 2 +
          (sig.getD j (0, 0)).2) 0)).sum) +
  (sig.getD i (0, 0)).1 * (sig.getD i (0, 0)).1 *
    Dk.getD ((sig.getD i (0, 0)).2 * ((sig.getD i (0, 0)).2 + 1) / 2 +
      (sig.getD i (0, 0)).2) 0

/-- Spec-side density value for one triangular-packed matrix: sum of all row
terms over the significant entries. -/
def specDensity (Dk : List ℚ) (sig : List (ℚ × Nat)) : ℚ :=
  ((List.range sig.length).map (densityRowTerm Dk sig)).sum

/-- Contribution of one significant shell to the orbital outputs: for each
local basis function `i`, add `coefficient(index_k, basoff+i) * values[i]`
into every requested orbital slot `k`. -/
def orbAddShell (coeff : Int → Nat → ℚ) (indices : List Int) (basoff : Nat)
    (vs : List ℚ) (numbas : Nat) (out : List ℚ) : List ℚ :=
  (List.range numbas).foldl
    (fun o i =>
      List.zipWith (fun ok idx => ok + coeff idx (basoff + i) * vs.getD i 0)
        o indices) out

/-- Shell loop of `ShellList::orbitalValues`: a null evaluation contributes
nothing, but `basoff` advances by the shell's basis count either way. -/
def orbGo (coeff : Int → Nat → ℚ) (indices : List Int) (x y z : ℚ) :
    List Shell → Nat → List ℚ → List ℚ
  | [], _, out => out
  | sh :: rest, basoff, out =>
    orbGo coeff indices x y z rest (basoff + sh.nBasis)
      (match sh.eval x y z with
       | some vs => orbAddShell coeff indices basoff vs sh.nBasis out
       | none => out)

/-- `ShellList::orbitalValues(x,y,z)`: zero the output buffer, then accumulate
every significant shell's projection against every requested orbital. -/
def orbitalValues (shells : List Shell) (coeff : Int → Nat → ℚ)
    (indices : List Int) (x y z : ℚ) : List ℚ :=
  orbGo coeff indices x y z shells 0 (List.replicate indices.length 0)

/-- Identity coefficient matrix: entry `(r, c)` is 1 when `r = c`, else 0. -/
def identCoeff (r : Int) (c : Nat) : ℚ :=
  if r = Int.ofNat c then 1 else 0

/-- Fold step of `ShellList::boundingBox`: componentwise min of box minima and
max of box maxima. -/
def bbStep (acc : Vec3 × Vec3) (b : Vec3 × Vec3) : Vec3 × Vec3 :=
  (⟨min b.1.x acc.1.x, min b.1.y acc.1.y, min b.1.z acc.1.z⟩,
   ⟨max b.2.x acc.2.x, max b.2.y acc.2.y, max b.2.z acc.2.z⟩)

/-- `ShellList::boundingBox`: a degenerate box at the origin for an empty
container, otherwise the fold of every shell's box starting from the first
shell's box. -/
def boundingBox (shells : List Shell) (thresh : ℚ) : Vec3 × Vec3 :=
  match shells with
  | [] => (⟨0, 0, 0⟩, ⟨0, 0, 0⟩)
  | sh0 :: _ =>
    (shells.map (fun sh => sh.bbox thresh)).foldl bbStep (sh0.bbox thresh)

/-- A value is the componentwise minimum of a list: it is a member and a lower
bound. -/
def IsMinOf (r : ℚ) (l : List ℚ) : Prop := r ∈ l ∧ ∀ v ∈ l, r ≤ v

/-- A value is the componentwise maximum of a list: it is a member and an
upper bound. -/
def IsMaxOf (r : ℚ) (l : List ℚ) : Prop := r ∈ l ∧ ∀ v ∈ l, v ≤ r

/-- Modulus of the 32-bit `unsigned` arithmetic used in `ShellList::resize`. -/
def uintMod : Nat := 2 ^ 32

/-- The product `m_nBasis*(m_nBasis+1)` as computed in 32-bit unsigned
arithmetic. -/
def triProd (n : Nat) : Nat :=
  ((n % uintMod) * ((n % uintMod + 1) % uintMod)) % uintMod

/-- Whether the defensive parity check `2*size != m_nBasis*(m_nBasis+1)` in
`ShellList::resize` fires. -/
def resizeParityFails (n : Nat) : Bool :=
  decide ((2 * (triProd n / 2)) % uintMod ≠ triProd n)

/-- The basis-pair buffer size computed by `ShellList::resize` (including the
defensive increment). -/
def resizeTriSize (n : Nat) : Nat :=
  let size := triProd n / 2
  if (2 * size) % uintMod ≠ triProd n then size + 1 else size

/-- Concrete always-significant S shell (value 2) used to instantiate
theorems on concrete inputs. -/
def wShellA : Shell where
  kind := .S
  atom := 0
  eval := fun _ _ _ => some [2]
  bbox := fun _ => (⟨-1, -1, -1⟩, ⟨1, 2, 3⟩)
  eval_len := by intro x y z vs h; simp only at h; cases h; rfl

/-- Concrete never-significant P shell. -/
def wShellB : Shell where
  kind := .P
  atom := 0
  eval := fun _ _ _ => none
  bbox := fun _ => (⟨-2, 0, 0⟩, ⟨0, 0, 5⟩)
  eval_len := fun _ _ _ _ h => Option.noConfusion h

/-- Concrete always-significant S shell (value 3) on a second atom. -/
def wShellC : Shell where
  kind := .S
  atom := 1
  eval := fun _ _ _ => some [3]
  bbox := fun _ => (⟨0, -3, 0⟩, ⟨2, 0, 0⟩)
  eval_len := by intro x y z vs h; simp only at h; cases h; rfl

/-- Trivial geometry lookup used in concrete instantiations. -/
def wGeom : Nat → Vec3 := fun _ => ⟨0, 0, 0⟩

/-- Concrete raw record with a combined S+P entry followed by a plain S
entry. -/
def wData : ShellData where
  shellTypes := [-1, 0]
  shellToAtom := [1, 1]
  shellPrimitives := [1, 1]
  exponents := [5, 7]
  contractionCoefficients := [11, 13]
  contractionCoefficientsSP := [17, 19]
  overlapMatrix := []

/-! ## Lemmas about the resize arithmetic -/

theorem triProd_mod_two (n : Nat) : triProd n % 2 = 0 := by
  have hdvd : (2 : Nat) ∣ uintMod := ⟨2 ^ 31, by norm_num [uintMod]⟩
  have key : ∀ a : Nat, (a * ((a + 1) % uintMod)) % uintMod % 2 = 0 := by
    intro a
    rw [Nat.mod_mod_of_dvd _ hdvd, Nat.mul_mod, Nat.mod_mod_of_dvd _ hdvd]
    have h2 : a % 2 = 0 ∨ (a + 1) % 2 = 0 := by omega
    rcases h2 with h2 | h2 <;> rw [h2] <;> simp
  exact key (n % uintMod)

theorem triProd_lt (n : Nat) : triProd n < uintMod := by
  unfold triProd
  exact Nat.mod_lt _ (by norm_num [uintMod])

theorem two_mul_half_triProd (n : Nat) : 2 * (triProd n / 2) = triProd n :=
  Nat.mul_div_cancel' (Nat.dvd_of_mod_eq_zero (triProd_mod_two n))

theorem resizeTriSize_eq (n : Nat) : resizeTriSize n = triProd n / 2 := by
  simp only [resizeTriSize]
  rw [two_mul_half_triProd, Nat.mod_eq_of_lt (triProd_lt n)]
  simp

/-- C4: in `ShellList::resize`, the 32-bit unsigned triangular size always
passes the parity check `2*size == nBasis*(nBasis+1)` (so the defensive
increment branch is unreachable), and without overflow the basis-pair buffer
size is exactly `nBasis*(nBasis+1)/2`, giving 0 for `nBasis = 0` and 6 for
`nBasis = 3`. -/
theorem resize_triangular_spec :
    (∀ n : Nat, resizeParityFails n = false) ∧
    (∀ n : Nat, (2 * resizeTriSize n) % uintMod = triProd n) ∧
    (∀ n : Nat, n * (n + 1) < uintMod → resizeTriSize n = n * (n + 1) / 2) ∧
    resizeTriSize 0 = 0 ∧ resizeTriSize 3 = 6 := by
  refine ⟨?_, ?_, ?_, by decide, by decide⟩
  · intro n
    simp only [resizeParityFails, decide_eq_false_iff_not, not_not]
    rw [two_mul_half_triProd, Nat.mod_eq_of_lt (triProd_lt n)]
  · intro n
    rw [resizeTriSize_eq, two_mul_half_triProd, Nat.mod_eq_of_lt (triProd_lt n)]
  · intro n h
    have hn : n < uintMod := by
      calc n ≤ n * (n + 1) := Nat.le_mul_of_pos_right n (Nat.succ_pos n)
      _ < uintMod := h
    have hn1 : n + 1 < uintMod := by
      rcases Nat.eq_zero_or_pos n with h0 | h0
      · subst h0; norm_num [uintMod]
      · calc n + 1 = 1 * (n + 1) := by ring
        _ ≤ n * (n + 1) := Nat.mul_le_mul_right (n + 1) h0
        _ < uintMod := h
    rw [resizeTriSize_eq]
    unfold triProd
    rw [Nat.mod_eq_of_lt hn, Nat.mod_eq_of_lt hn1, Nat.mod_eq_of_lt h]

/-- Witness for C4 at the concrete basis count 3. -/
theorem resize_triangular_spec_witness :
    3 * (3 + 1) < uintMod ∧ resizeTriSize 3 = 3 * (3 + 1) / 2 :=
  ⟨by decide, resize_triangular_spec.2.2.1 3 (by decide)⟩

/-! ## Lemmas about atom-offset bookkeeping -/

theorem shellAtomOffsetsGo_bounds :
    ∀ (atoms : List Nat) (k e m : Nat), m ∈ shellAtomOffsetsGo atoms k e → k ≤ m := by
  intro atoms
  induction atoms with
  | nil => intro k e m h; simp [shellAtomOffsetsGo] at h
  | cons a rest ih =>
    intro k e m h
    simp only [shellAtomOffsetsGo] at h
    by_cases hc : a ≠ e
    · rw [if_pos hc] at h
      rcases List.mem_cons.mp h with h | h
      · omega
      · have := ih (k + 1) (e + 1) m h; omega
    · rw [if_neg hc] at h
      have := ih (k + 1) e m h; omega

theorem shellAtomOffsetsGo_chain :
    ∀ (atoms : List Nat) (k e : Nat),
      List.Chain' (· < ·) (shellAtomOffsetsGo atoms k e) := by
  intro atoms
  induction atoms with
  | nil => intro k e; simp [shellAtomOffsetsGo]
  | cons a rest ih =>
    intro k e
    simp only [shellAtomOffsetsGo]
    by_cases hc : a ≠ e
    · rw [if_pos hc]
      refine List.chain'_cons'.mpr ⟨?_, ih (k + 1) (e + 1)⟩
      intro m hm
      have hmem : m ∈ shellAtomOffsetsGo rest (k + 1) (e + 1) :=
        List.mem_of_mem_head? hm
      have := shellAtomOffsetsGo_bounds rest (k + 1) (e + 1) m hmem
      omega
    · rw [if_neg hc]; exact ih (k + 1) e

theorem shellAtomOffsetsGo_const :
    ∀ (atoms : List Nat) (k e : Nat), (∀ a ∈ atoms, a = e) →
      shellAtomOffsetsGo atoms k e = [] := by
  intro atoms
  induction atoms with
  | nil => intro k e _; rfl
  | cons a rest ih =>
    intro k e h
    have ha : a = e := h a (List.mem_cons_self a rest)
    simp only [shellAtomOffsetsGo]
    rw [if_neg (not_not_intro ha)]
    exact ih (k + 1) e (fun b hb => h b (List.mem_cons_of_mem a hb))

/-- C8: `shellAtomOffsets` starts with 0; the appended boundary entries are
strictly increasing (hence so is the whole sequence when the shells start at
atom 0, as they do for shells grouped by increasing atom index); and a
single-atom container with 3 shells yields exactly `[0]`. -/
theorem shellAtomOffsets_spec :
    ∀ atoms : List Nat,
      (shellAtomOffsets atoms).head? = some 0 ∧
      List.Chain' (· < ·) (shellAtomOffsets atoms).tail ∧
      (atoms.head? = some 0 → List.Chain' (· < ·) (shellAtomOffsets atoms)) ∧
      ((∀ a ∈ atoms, a = 0) → atoms.length = 3 → shellAtomOffsets atoms = [0]) := by
  intro atoms
  refine ⟨rfl, shellAtomOffsetsGo_chain atoms 0 0, ?_, ?_⟩
  · intro hhead
    unfold shellAtomOffsets
    refine List.chain'_cons'.mpr ⟨?_, shellAtomOffsetsGo_chain atoms 0 0⟩
    intro m hm
    cases atoms with
    | nil => simp [shellAtomOffsetsGo] at hm
    | cons a rest =>
      have ha : a = 0 := by simpa using hhead
      subst ha
      simp only [shellAtomOffsetsGo] at hm
      rw [if_neg (by omega)] at hm
      have hmem : m ∈ shellAtomOffsetsGo rest 1 0 := List.mem_of_mem_head? hm
      have := shellAtomOffsetsGo_bounds rest 1 0 m hmem
      omega
  · intro hall _
    unfold shellAtomOffsets
    rw [shellAtomOffsetsGo_const atoms 0 0 hall]

/-- Witness for C8 on a single-atom container with 3 shells, all on atom 0. -/
theorem shellAtomOffsets_spec_witness :
    shellAtomOffsets [0, 0, 0] = [0] :=
  (shellAtomOffsets_spec [0, 0, 0]).2.2.2 (by decide) (by decide)

/-! ## Lemmas about construction from the raw record -/

theorem getD_set_self (l : List Int) (s : Nat) (c : Int) (h : s < l.length) :
    (l.set s c).getD s 0 = c := by
  rw [List.getD_eq_getElem?_getD, List.getElem?_set_self h]
  rfl

theorem getD_set_of_ne (l : List Int) (t s : Nat) (c : Int) (h : t ≠ s) :
    (l.set s c).getD t 0 = l.getD t 0 := by
  rw [List.getD_eq_getElem?_getD, List.getElem?_set_ne (by omega),
    ← List.getD_eq_getElem?_getD]

set_option maxHeartbeats 1000000 in
/-- C5: the constructor maps each recognized type code to the table's kinds;
a `-1` entry produces exactly an S shell from the primary coefficients and a P
shell from the SP coefficients, sharing the same converted exponents, atom
index, and position. -/
theorem construction_type_code_spec :
    (∀ (conv : ℚ) (data : ShellData) (geom : Nat → Vec3) (s : Nat),
      ((entryOut conv data geom s).1.map ShellSpec.kind) =
        codeKinds (data.shellTypes.getD s 0)) ∧
    (∀ (conv : ℚ) (data : ShellData) (geom : Nat → Vec3) (s : Nat),
      data.shellTypes.getD s 0 = -1 →
      (entryOut conv data geom s).1 =
        [⟨.S, entryAtom data s, geom (entryAtom data s), entryExpts conv data s,
          entryCoefs data s⟩,
         ⟨.P, entryAtom data s, geom (entryAtom data s), entryExpts conv data s,
          entryCoefsSP data s⟩]) := by
  constructor
  · intro conv data geom s
    simp only [entryOut, codeKinds]
    generalize geom (entryAtom data s) = pos
    generalize entryAtom data s = atom
    generalize entryExpts conv data s = e
    generalize entryCoefs data s = cf
    generalize entryCoefsSP data s = csp
    generalize data.shellTypes.getD s 0 = t
    split_ifs <;> rfl
  · intro conv data geom s h
    simp only [entryOut, h]
    simp

/-- Witness for C5: the combined entry of `wData` yields the S and P pair. -/
theorem construction_type_code_spec_witness :
    (entryOut 1 wData wGeom 0).1 =
      [⟨.S, entryAtom wData 0, wGeom (entryAtom wData 0), entryExpts 1 wData 0,
        entryCoefs wData 0⟩,
       ⟨.P, entryAtom wData 0, wGeom (entryAtom wData 0), entryExpts 1 wData 0,
        entryCoefsSP wData 0⟩] :=
  construction_type_code_spec.2 1 wData wGeom 0 (by decide)

theorem specNBasis_append (l1 l2 : List ShellSpec) :
    specNBasis (l1 ++ l2) = specNBasis l1 + specNBasis l2 := by
  simp [specNBasis]

theorem specNBasis_flatMap_le (f g : Nat → List ShellSpec) :
    ∀ L : List Nat, (∀ t ∈ L, f t = g t ∨ f t = []) →
      specNBasis (L.flatMap f) ≤ specNBasis (L.flatMap g) := by
  intro L
  induction L with
  | nil => intro _; simp
  | cons a L ih =>
    intro h
    rw [List.flatMap_cons, List.flatMap_cons, specNBasis_append, specNBasis_append]
    have ha := h a (List.mem_cons_self a L)
    have hL := ih (fun t ht => h t (List.mem_cons_of_mem a ht))
    rcases ha with ha | ha
    · rw [ha]; exact Nat.add_le_add_left hL _
    · rw [ha]
      exact Nat.add_le_add (Nat.zero_le _) hL

/-- C6: an entry whose type code lies outside the recognized range produces no
shells, emits the diagnostic naming its position and code, leaves every other
entry's contribution unchanged, and only shrinks the total basis count. -/
theorem unknown_type_code_spec :
    ∀ (conv : ℚ) (data : ShellData) (geom : Nat → Vec3) (s : Nat) (c : Int),
      (c < -4 ∨ 4 < c) → s < data.shellTypes.length →
      (entryOut conv (setShellType data s c) geom s).1 = [] ∧
      (entryOut conv (setShellType data s c) geom s).2 = [unknownTypeMsg s c] ∧
      (∀ t, t ≠ s →
        entryOut conv (setShellType data s c) geom t = entryOut conv data geom t) ∧
      specNBasis (buildShells conv (setShellType data s c) geom) ≤
        specNBasis (buildShells conv data geom) := by
  intro conv data geom s c hc hs
  have hgd : (setShellType data s c).shellTypes.getD s 0 = c := by
    simp only [setShellType]
    exact getD_set_self _ s c hs
  have hmain : entryOut conv (setShellType data s c) geom s =
      ([], [unknownTypeMsg s c]) := by
    simp only [entryOut, hgd]
    split_ifs with h1 h2 h3 h4 h5 h6 h7 h8 h9
    all_goals first | rfl | omega
  have hother : ∀ t, t ≠ s →
      entryOut conv (setShellType data s c) geom t = entryOut conv data geom t := by
    intro t ht
    have hgd2 : (data.shellTypes.set s c).getD t 0 = data.shellTypes.getD t 0 :=
      getD_set_of_ne _ t s c ht
    simp only [entryOut, entryAtom, entryExpts, entryCoefs, entryCoefsSP,
      primStart, setShellType, hgd2]
  refine ⟨by rw [hmain], by rw [hmain], hother, ?_⟩
  have hlen : (setShellType data s c).shellTypes.length = data.shellTypes.length := by
    simp [setShellType]
  unfold buildShells
  rw [hlen]
  apply specNBasis_flatMap_le
  intro t _
  by_cases ht : t = s
  · subst ht
    right
    rw [hmain]
  · left
    exact congrArg Prod.fst (hother t ht)

/-- Witness for C6 at the concrete record `wData`, entry 0 set to code 7. -/
theorem unknown_type_code_spec_witness :
    (entryOut 1 (setShellType wData 0 7) wGeom 0).1 = [] ∧
    (entryOut 1 (setShellType wData 0 7) wGeom 0).2 = [unknownTypeMsg 0 7] :=
  ⟨(unknown_type_code_spec 1 wData wGeom 0 7 (by omega) (by decide)).1,
   (unknown_type_code_spec 1 wData wGeom 0 7 (by omega) (by decide)).2.1⟩

theorem buildShells_overlap_irrel (conv : ℚ) (data : ShellData)
    (geom : Nat → Vec3) (M : List ℚ) :
    buildShells conv { data with overlapMatrix := M } geom =
      buildShells conv data geom := by
  simp only [buildShells, entryOut, entryAtom, entryExpts, entryCoefs,
    entryCoefsSP, primStart]

theorem buildLog_overlap_irrel (conv : ℚ) (data : ShellData)
    (geom : Nat → Vec3) (M : List ℚ) :
    buildLog conv { data with overlapMatrix := M } geom =
      buildLog conv data geom := by
  simp only [buildLog, entryOut, entryAtom, entryExpts, entryCoefs,
    entryCoefsSP, primStart]

/-- C7: the overlap matrix is retained exactly when its element count equals
`nBasis*(nBasis+1)/2` for the post-construction basis count; a mismatched
matrix is dropped with no effect on the shells or the diagnostics. -/
theorem overlap_retention_spec :
    ∀ (conv : ℚ) (data : ShellData) (geom : Nat → Vec3),
      (∀ M : List ℚ, (mkShellList conv data geom).overlap = some M ↔
        (M = data.overlapMatrix ∧
          data.overlapMatrix.length =
            (specNBasis (buildShells conv data geom) + 1) *
              specNBasis (buildShells conv data geom) / 2)) ∧
      (∀ M2 : List ℚ,
        (mkShellList conv { data with overlapMatrix := M2 } geom).shells =
          (mkShellList conv data geom).shells ∧
        (mkShellList conv { data with overlapMatrix := M2 } geom).log =
          (mkShellList conv data geom).log) := by
  intro conv data geom
  constructor
  · intro M
    simp only [mkShellList]
    by_cases hsz : data.overlapMatrix.length =
        (specNBasis (buildShells conv data geom) + 1) *
          specNBasis (buildShells conv data geom) / 2
    · rw [if_pos hsz]
      simp only [Option.some_inj]
      constructor
      · intro h; exact ⟨h.symm, hsz⟩
      · intro h; exact h.1.symm
    · rw [if_neg hsz]
      constructor
      · intro h; exact absurd h (by simp)
      · intro h; exact absurd h.2 hsz
  · intro M2
    exact ⟨buildShells_overlap_irrel conv data geom M2,
      buildLog_overlap_irrel conv data geom M2⟩

/-- Witness for C7: the empty overlap matrix of `wData` is not retained. -/
theorem overlap_retention_spec_witness :
    (mkShellList 1 wData wGeom).overlap = some [] ↔
      ([] = wData.overlapMatrix ∧
        wData.overlapMatrix.length =
          (specNBasis (buildShells 1 wData wGeom) + 1) *
            specNBasis (buildShells 1 wData wGeom) / 2) :=
  (overlap_retention_spec 1 wData wGeom).1 []

/-! ## Lemmas about basis-value evaluation -/

theorem map_getD_range (vs : List ℚ) :
    (List.range vs.length).map (fun s => vs.getD s 0) = vs := by
  apply List.ext_getElem
  · simp
  · intro n h1 h2
    simp only [List.getElem_map, List.getElem_range, List.getD_eq_getElem?_getD,
      List.getElem?_eq_getElem h2]
    rfl

theorem map_zero_range (nb : Nat) :
    (List.range nb).map (fun _ => (0 : ℚ)) = List.replicate nb 0 := by
  rw [List.map_const', List.length_range]

theorem shellValuesXYZ_length (shells : List Shell) (x y z : ℚ) :
    (shellValuesXYZ shells x y z).length = nBasisTotal shells := by
  induction shells with
  | nil => rfl
  | cons sh rest ih =>
    simp only [shellValuesXYZ, nBasisTotal, List.map_cons, List.sum_cons,
      List.length_append, ih]
    cases heval : sh.eval x y z <;>
      simp [nBasisTotal]

theorem shellValuesXYZ_all_none (shells : List Shell) (x y z : ℚ)
    (h : ∀ sh ∈ shells, sh.eval x y z = none) :
    shellValuesXYZ shells x y z = List.replicate (nBasisTotal shells) 0 := by
  induction shells with
  | nil => rfl
  | cons sh rest ih =>
    have hsh := h sh (List.mem_cons_self sh rest)
    simp only [shellValuesXYZ, hsh, nBasisTotal, List.map_cons, List.sum_cons]
    rw [ih (fun s hs => h s (List.mem_cons_of_mem sh hs)), map_zero_range]
    rw [← List.replicate_add]
    rfl

/-- C3: `shellValues(x,y,z)` has length `nBasis`; each shell's global-offset
slice is its evaluated values when significant and all zeros when null; at a
point where every shell is null the whole vector is zero. -/
theorem shellValues_xyz_spec :
    ∀ (shells : List Shell) (x y z : ℚ),
      (shellValuesXYZ shells x y z).length = nBasisTotal shells ∧
      (∀ (n : Nat) (h : n < shells.length),
        ((shellValuesXYZ shells x y z).drop
            (nBasisTotal (shells.take n))).take ((shells.get ⟨n, h⟩).nBasis) =
          (match (shells.get ⟨n, h⟩).eval x y z with
           | some vs => vs
           | none => List.replicate ((shells.get ⟨n, h⟩).nBasis) 0)) ∧
      ((∀ sh ∈ shells, sh.eval x y z = none) →
        shellValuesXYZ shells x y z = List.replicate (nBasisTotal shells) 0) := by
  intro shells x y z
  refine ⟨shellValuesXYZ_length shells x y z, ?_,
    shellValuesXYZ_all_none shells x y z⟩
  induction shells with
  | nil => intro n h; exact absurd h (by simp)
  | cons sh rest ih =>
    intro n h
    cases n with
    | zero =>
      simp only [List.take_zero, nBasisTotal, List.map_nil, List.sum_nil,
        List.drop_zero, List.get]
      cases heval : sh.eval x y z with
      | some vs =>
        have hlen : vs.length = sh.nBasis := sh.eval_len x y z vs heval
        simp only [shellValuesXYZ, heval]
        rw [List.take_left' (by simp [hlen])]
        rw [← hlen, map_getD_range]
      | none =>
        simp only [shellValuesXYZ, heval]
        rw [List.take_left' (by simp)]
        exact map_zero_range sh.nBasis
    | succ n =>
      have hn : n < rest.length := by simpa using h
      have hblock : ∀ (block : List ℚ), block.length = sh.nBasis →
          ((block ++ shellValuesXYZ rest x y z).drop
              (nBasisTotal ((sh :: rest).take (n + 1)))).take
            (((sh :: rest).get ⟨n + 1, h⟩).nBasis) =
          ((shellValuesXYZ rest x y z).drop
              (nBasisTotal (rest.take n))).take ((rest.get ⟨n, hn⟩).nBasis) := by
        intro block hb
        rw [List.take_succ_cons]
        have hsum : nBasisTotal (sh :: rest.take n) =
            block.length + nBasisTotal (rest.take n) := by
          simp [nBasisTotal, hb]
        rw [hsum, ← List.drop_drop, List.drop_left]
        rfl
      cases heval : sh.eval x y z with
      | some vs =>
        have hlen : vs.length = sh.nBasis := sh.eval_len x y z vs heval
        simp only [shellValuesXYZ, heval]
        rw [hblock _ (by simp [hlen])]
        exact ih n hn
      | none =>
        simp only [shellValuesXYZ, heval]
        rw [hblock _ (by simp)]
        exact ih n hn

/-- Witness for C3 on a three-shell container whose middle shell is null at
the origin: slice 1 (the P shell) is all zeros. -/
theorem shellValues_xyz_spec_witness :
    ((shellValuesXYZ [wShellA, wShellB, wShellC] 0 0 0).drop
        (nBasisTotal ([wShellA, wShellB, wShellC].take 1))).take
      (([wShellA, wShellB, wShellC].get ⟨1, by decide⟩).nBasis) =
      List.replicate (([wShellA, wShellB, wShellC].get ⟨1, by decide⟩).nBasis) 0 :=
  (shellValues_xyz_spec [wShellA, wShellB, wShellC] 0 0 0).2.1 1 (by decide)

/-! ## Generic lemmas for accumulation loops over an output buffer -/

theorem foldl_range_map {α : Type} (L : List α) (t : Nat → α → ℚ)
    (step : List ℚ → Nat → List ℚ)
    (hstep : ∀ (g : α → ℚ) (i : Nat),
      step (L.map g) i = L.map (fun a => g a + t i a)) :
    ∀ (n : Nat) (g : α → ℚ),
      (List.range n).foldl step (L.map g) =
        L.map (fun a => g a + ((List.range n).map (fun i => t i a)).sum) := by
  intro n
  induction n with
  | zero => intro g; simp
  | succ n ih =>
    intro g
    rw [List.range_succ, List.foldl_append, ih g, List.foldl_cons, List.foldl_nil,
      hstep]
    simp [List.range_succ, add_assoc]

theorem zipWith_add_map {α : Type} (L : List α) (g f : α → ℚ) :
    List.zipWith (fun o a => o + f a) (L.map g) L =
      L.map (fun a => g a + f a) := by
  rw [List.zipWith_map_left, List.zipWith_same]

/-! ## Lemmas about density evaluation -/

theorem addScaled_map (dens : List (List ℚ)) (g : List ℚ → ℚ) (c : ℚ)
    (idx : Nat) :
    addScaled (dens.map g) dens c idx =
      dens.map (fun Dk => g Dk + c * Dk.getD idx 0) :=
  zipWith_add_map dens g (fun Dk => c * Dk.getD idx 0)

theorem densityRow_map (dens : List (List ℚ)) (sig : List (ℚ × Nat)) (i : Nat)
    (g : List ℚ → ℚ) :
    densityRow dens sig i (dens.map g) =
      dens.map (fun Dk => g Dk + densityRowTerm Dk sig i) := by
  simp only [densityRow]
  rw [foldl_range_map dens
    (fun j Dk => 2 * (2 * (sig.getD i (0, 0)).1 * (sig.getD j (0, 0)).1) *
      Dk.getD ((sig.getD i (0, 0)).2 * ((sig.getD i (0, 0)).2 + 1) / 2 +
        (sig.getD j (0, 0)).2) 0)
    _ (fun g' j => addScaled_map dens g' _ _) i g]
  rw [addScaled_map]
  simp only [densityRowTerm, add_assoc]

theorem densityValues_eq (shells : List Shell) (dens : List (List ℚ))
    (x y z : ℚ) :
    densityValues shells dens x y z =
      dens.map (fun Dk => specDensity Dk (sigScan shells x y z 0)) := by
  simp only [densityValues]
  rw [← List.map_const']
  rw [foldl_range_map dens
    (fun i Dk => densityRowTerm Dk (sigScan shells x y z 0) i)
    _ (fun g i => densityRow_map dens (sigScan shells x y z 0) i g)]
  simp [specDensity]

theorem sigScan_append (s1 s2 : List Shell) (x y z : ℚ) :
    ∀ b : Nat, sigScan (s1 ++ s2) x y z b =
      sigScan s1 x y z b ++ sigScan s2 x y z (b + nBasisTotal s1) := by
  induction s1 with
  | nil => intro b; simp [sigScan, nBasisTotal]
  | cons sh rest ih =>
    intro b
    cases heval : sh.eval x y z with
    | some vs =>
      simp only [List.cons_append, sigScan, heval, List.append_eq]
      rw [ih (b + sh.nBasis)]
      simp [nBasisTotal, Nat.add_assoc]
    | none =>
      simp only [List.cons_append, sigScan, heval, List.append_eq]
      rw [ih (b + sh.nBasis)]
      simp [nBasisTotal, Nat.add_assoc]

/-- C1: `densityValues(x,y,z)` equals, for each bound density matrix, the
quadratic form over the significant basis entries — off-diagonal pairs
contribute `2*(2*x_i*x_j)*D[Ti+jj]`, diagonals `x_i^2*D[Ti+ii]`, starting from
a zeroed output — and the significance scan skips insignificant shells while
still advancing the global basis index by their basis count. -/
theorem densityValues_spec :
    (∀ (shells : List Shell) (dens : List (List ℚ)) (x y z : ℚ),
      densityValues shells dens x y z =
        dens.map (fun Dk => specDensity Dk (sigScan shells x y z 0))) ∧
    (∀ (s1 s2 : List Shell) (x y z : ℚ) (b : Nat),
      sigScan (s1 ++ s2) x y z b =
        sigScan s1 x y z b ++ sigScan s2 x y z (b + nBasisTotal s1)) :=
  ⟨densityValues_eq, fun s1 s2 x y z b => sigScan_append s1 s2 x y z b⟩

/-! ## Lemmas about orbital evaluation -/

theorem getD_append_lt (l1 l2 : List ℚ) (n : Nat) (h : n < l1.length) :
    (l1 ++ l2).getD n 0 = l1.getD n 0 := by
  rw [List.getD_eq_getElem?_getD, List.getElem?_append, if_pos h,
    ← List.getD_eq_getElem?_getD]

theorem getD_append_ge (l1 l2 : List ℚ) (n : Nat) (h : l1.length ≤ n) :
    (l1 ++ l2).getD n 0 = l2.getD (n - l1.length) 0 := by
  rw [List.getD_eq_getElem?_getD, List.getElem?_append, if_neg (by omega),
    ← List.getD_eq_getElem?_getD]

theorem getD_map_range (vs : List ℚ) (nb n : Nat) (h : n < nb) :
    ((List.range nb).map (fun s => vs.getD s 0)).getD n 0 = vs.getD n 0 := by
  rw [List.getD_eq_getElem?_getD, List.getElem?_map, List.getElem?_range h]
  rfl

theorem sum_range_indicator (f : Nat → ℚ) (nb n : Nat) :
    ((List.range nb).map (fun i => if i = n then f i else 0)).sum =
      if n < nb then f n else 0 := by
  induction nb with
  | zero => simp
  | succ nb ih =>
    rw [List.range_succ, List.map_append, List.sum_append, ih]
    by_cases h : n < nb
    · rw [if_pos h, if_pos (by omega)]
      simp [show nb ≠ n by omega]
    · by_cases h2 : nb = n
      · subst h2
        rw [if_neg h, if_pos (by omega)]
        simp
      · rw [if_neg h, if_neg (by omega)]
        simp [h2]

theorem sigScan_lb (shells : List Shell) (x y z : ℚ) :
    ∀ (b : Nat) (p : ℚ × Nat), p ∈ sigScan shells x y z b → b ≤ p.2 := by
  induction shells with
  | nil => intro b p hp; simp [sigScan] at hp
  | cons sh rest ih =>
    intro b p hp
    cases heval : sh.eval x y z with
    | some vs =>
      simp only [sigScan, heval] at hp
      rcases List.mem_append.mp hp with hp | hp
      · obtain ⟨i, _, hi⟩ := List.mem_map.mp hp
        subst hi
        exact Nat.le_add_right b i
      · have := ih (b + sh.nBasis) p hp; omega
    | none =>
      simp only [sigScan, heval] at hp
      have := ih (b + sh.nBasis) p hp; omega

theorem sigScan_indicator (shells : List Shell) (x y z : ℚ) :
    ∀ (b n : Nat),
      ((sigScan shells x y z b).map
        (fun p => if p.2 = b + n then p.1 else 0)).sum =
        (shellValuesXYZ shells x y z).getD n 0 := by
  induction shells with
  | nil => intro b n; simp [sigScan, shellValuesXYZ]
  | cons sh rest ih =>
    intro b n
    have hrest_zero : n < sh.nBasis →
        ((sigScan rest x y z (b + sh.nBasis)).map
          (fun p => if p.2 = b + n then p.1 else 0)).sum = 0 := by
      intro hn
      apply List.sum_eq_zero
      intro q hq
      obtain ⟨p, hp, hq⟩ := List.mem_map.mp hq
      have := sigScan_lb rest x y z (b + sh.nBasis) p hp
      rw [if_neg (by omega)] at hq
      exact hq.symm
    cases heval : sh.eval x y z with
    | none =>
      simp only [sigScan, shellValuesXYZ, heval]
      by_cases hn : n < sh.nBasis
      · rw [hrest_zero hn, getD_append_lt _ _ n (by simp [hn]), map_zero_range]
        simp [List.getD_eq_getElem?_getD, List.getElem?_replicate, hn]
      · rw [getD_append_ge _ _ n (by simp; omega)]
        simp only [List.length_map, List.length_range]
        have hb : b + n = (b + sh.nBasis) + (n - sh.nBasis) := by omega
        rw [hb, ih (b + sh.nBasis) (n - sh.nBasis)]
    | some vs =>
      have hlen : vs.length = sh.nBasis := sh.eval_len x y z vs heval
      simp only [sigScan, shellValuesXYZ, heval]
      rw [List.map_append, List.sum_append, List.map_map]
      have hblock : ((List.range sh.nBasis).map
          ((fun p : ℚ × Nat => if p.2 = b + n then p.1 else 0) ∘
            fun i => (vs.getD i 0, b + i))).sum =
          if n < sh.nBasis then vs.getD n 0 else 0 := by
        rw [show ((fun p : ℚ × Nat => if p.2 = b + n then p.1 else 0) ∘
            fun i => (vs.getD i 0, b + i)) =
            fun i => if i = n then vs.getD i 0 else 0 from ?_]
        · exact sum_range_indicator (fun i => vs.getD i 0) sh.nBasis n
        · funext i
          simp only [Function.comp]
          by_cases hi : i = n
          · rw [if_pos (by omega), if_pos hi]
          · rw [if_neg (by omega), if_neg hi]
      rw [hblock]
      by_cases hn : n < sh.nBasis
      · rw [if_pos hn, hrest_zero hn, getD_append_lt _ _ n (by simp [hn]),
          add_zero, getD_map_range vs sh.nBasis n hn]
      · rw [if_neg hn, zero_add, getD_append_ge _ _ n (by simp; omega)]
        simp only [List.length_map, List.length_range]
        have hb : b + n = (b + sh.nBasis) + (n - sh.nBasis) := by omega
        rw [hb, ih (b + sh.nBasis) (n - sh.nBasis)]

theorem orbAddShell_map (coeff : Int → Nat → ℚ) (indices : List Int)
    (basoff : Nat) (vs : List ℚ) (numbas : Nat) (g : Int → ℚ) :
    orbAddShell coeff indices basoff vs numbas (indices.map g) =
      indices.map (fun idx => g idx +
        ((List.range numbas).map
          (fun i => coeff idx (basoff + i) * vs.getD i 0)).sum) := by
  unfold orbAddShell
  exact foldl_range_map indices
    (fun i idx => coeff idx (basoff + i) * vs.getD i 0) _
    (fun g' i => zipWith_add_map indices g'
      (fun idx => coeff idx (basoff + i) * vs.getD i 0)) numbas g

theorem orbGo_eq (coeff : Int → Nat → ℚ) (indices : List Int) (x y z : ℚ) :
    ∀ (shells : List Shell) (basoff : Nat) (g : Int → ℚ),
      orbGo coeff indices x y z shells basoff (indices.map g) =
        indices.map (fun idx => g idx +
          ((sigScan shells x y z basoff).map
            (fun p => coeff idx p.2 * p.1)).sum) := by
  intro shells
  induction shells with
  | nil => intro basoff g; simp [orbGo, sigScan]
  | cons sh rest ih =>
    intro basoff g
    cases heval : sh.eval x y z with
    | none =>
      simp only [orbGo, heval]
      rw [ih (basoff + sh.nBasis) g]
      simp only [sigScan, heval]
    | some vs =>
      simp only [orbGo, heval]
      rw [orbAddShell_map, ih (basoff + sh.nBasis)]
      simp only [sigScan, heval, List.map_append, List.sum_append, List.map_map]
      congr 1
      funext idx
      rw [add_assoc]
      congr 2

theorem orbitalValues_eq (shells : List Shell) (coeff : Int → Nat → ℚ)
    (indices : List Int) (x y z : ℚ) :
    orbitalValues shells coeff indices x y z =
      indices.map (fun idx =>
        ((sigScan shells x y z 0).map (fun p => coeff idx p.2 * p.1)).sum) := by
  unfold orbitalValues
  rw [← List.map_const']
  rw [orbGo_eq]
  simp

theorem sigSum_ident (shells : List Shell) (x y z : ℚ) (n : Nat) :
    ((sigScan shells x y z 0).map
      (fun p => identCoeff (Int.ofNat n) p.2 * p.1)).sum =
      (shellValuesXYZ shells x y z).getD n 0 := by
  have hkey := sigScan_indicator shells x y z 0 n
  simp only [zero_add] at hkey
  rw [← hkey]
  congr 1
  apply List.map_congr_left
  intro p _
  simp only [identCoeff]
  by_cases hc : p.2 = n
  · rw [if_pos (by rw [hc]), if_pos hc, one_mul]
  · rw [if_neg (fun h => hc (Int.ofNat.inj h).symm), if_neg hc, zero_mul]

theorem orbitalValues_ident (shells : List Shell) (nidxs : List Nat)
    (x y z : ℚ) :
    orbitalValues shells identCoeff (nidxs.map (fun n => Int.ofNat n)) x y z =
      nidxs.map (fun n => (shellValuesXYZ shells x y z).getD n 0) := by
  rw [orbitalValues_eq]
  induction nidxs with
  | nil => rfl
  | cons n ns ih =>
    simp only [List.map_cons]
    congr 1
    exact sigSum_ident shells x y z n

/-- C2: `orbitalValues(x,y,z)` zeroes its output and accumulates, for each
requested orbital `k` and each basis function of each significant shell,
`coefficient[index_k][globalOffset+i] * value_i`; with the identity
coefficient matrix the result at `k` is `shellValues(x,y,z)[indices[k]]`. -/
theorem orbitalValues_spec :
    (∀ (shells : List Shell) (coeff : Int → Nat → ℚ) (indices : List Int)
      (x y z : ℚ),
      orbitalValues shells coeff indices x y z =
        indices.map (fun idx =>
          ((sigScan shells x y z 0).map
            (fun p => coeff idx p.2 * p.1)).sum)) ∧
    (∀ (shells : List Shell) (nidxs : List Nat) (x y z : ℚ),
      orbitalValues shells identCoeff (nidxs.map (fun n => Int.ofNat n)) x y z =
        nidxs.map (fun n => (shellValuesXYZ shells x y z).getD n 0)) :=
  ⟨orbitalValues_eq, orbitalValues_ident⟩

/-! ## Lemmas about the significant-index invariant -/

theorem sigScan_ub (shells : List Shell) (x y z : ℚ) :
    ∀ (b : Nat) (p : ℚ × Nat), p ∈ sigScan shells x y z b →
      p.2 < b + nBasisTotal shells := by
  induction shells with
  | nil => intro b p hp; simp [sigScan] at hp
  | cons sh rest ih =>
    intro b p hp
    have htot : nBasisTotal (sh :: rest) = sh.nBasis + nBasisTotal rest := by
      simp [nBasisTotal]
    cases heval : sh.eval x y z with
    | some vs =>
      simp only [sigScan, heval] at hp
      rcases List.mem_append.mp hp with hp | hp
      · obtain ⟨i, hi_mem, hi⟩ := List.mem_map.mp hp
        subst hi
        have hi2 : i < sh.nBasis := List.mem_range.mp hi_mem
        show b + i < b + nBasisTotal (sh :: rest)
        omega
      · have := ih (b + sh.nBasis) p hp
        omega
    | none =>
      simp only [sigScan, heval] at hp
      have := ih (b + sh.nBasis) p hp
      omega

theorem sigScan_pairwise (shells : List Shell) (x y z : ℚ) :
    ∀ b : Nat, List.Pairwise (fun p q : ℚ × Nat => p.2 < q.2)
      (sigScan shells x y z b) := by
  induction shells with
  | nil => intro b; simp [sigScan]
  | cons sh rest ih =>
    intro b
    cases heval : sh.eval x y z with
    | none =>
      simp only [sigScan, heval]
      exact ih (b + sh.nBasis)
    | some vs =>
      simp only [sigScan, heval]
      rw [List.pairwise_append]
      refine ⟨?_, ih (b + sh.nBasis), ?_⟩
      · rw [List.pairwise_map]
        exact (List.pairwise_lt_range sh.nBasis).imp
          (fun hij => by simpa using Nat.add_lt_add_left hij b)
      · intro p hp q hq
        obtain ⟨i, hi_mem, hi⟩ := List.mem_map.mp hp
        subst hi
        have h1 : i < sh.nBasis := List.mem_range.mp hi_mem
        have h2 := sigScan_lb rest x y z (b + sh.nBasis) q hq
        show b + i < q.2
        omega

theorem sigScan_length (shells : List Shell) (x y z : ℚ) :
    ∀ b : Nat, (sigScan shells x y z b).length ≤ nBasisTotal shells := by
  induction shells with
  | nil => intro b; simp [sigScan, nBasisTotal]
  | cons sh rest ih =>
    intro b
    have htot : nBasisTotal (sh :: rest) = sh.nBasis + nBasisTotal rest := by
      simp [nBasisTotal]
    cases heval : sh.eval x y z with
    | some vs =>
      simp only [sigScan, heval, List.length_append, List.length_map,
        List.length_range]
      have := ih (b + sh.nBasis)
      omega
    | none =>
      simp only [sigScan, heval]
      have := ih (b + sh.nBasis)
      omega

theorem tri_mono (a b : Nat) (h : a ≤ b) : a * (a + 1) / 2 ≤ b * (b + 1) / 2 :=
  Nat.div_le_div_right (Nat.mul_le_mul h (by omega))

theorem tri_succ (a : Nat) :
    (a + 1) * (a + 2) / 2 = a * (a + 1) / 2 + (a + 1) := by
  obtain ⟨k, hk⟩ := Nat.even_mul_succ_self a
  have h2 : (a + 1) * (a + 2) = a * (a + 1) + 2 * (a + 1) := by ring
  omega

theorem tri_bound (ii jj nB : Nat) (h1 : jj ≤ ii) (h2 : ii < nB) :
    ii * (ii + 1) / 2 + jj < nB * (nB + 1) / 2 := by
  have hs := tri_succ ii
  have hm : (ii + 1) * (ii + 2) / 2 ≤ nB * (nB + 1) / 2 := tri_mono (ii + 1) nB h2
  omega

theorem getD_pair_eq_getElem (sig : List (ℚ × Nat)) (i : Nat)
    (h : i < sig.length) : sig.getD i (0, 0) = sig[i] := by
  rw [List.getD_eq_getElem?_getD, List.getElem?_eq_getElem h]
  rfl

/-- C10: after the significance scan, the recorded global indices are strictly
increasing and below `nBasis`, at most `nBasis` entries are recorded, and
every packed-triangle offset `Ti + jj` read by the density loop stays below
`nBasis*(nBasis+1)/2`. -/
theorem sig_indices_invariant :
    ∀ (shells : List Shell) (x y z : ℚ),
      List.Pairwise (fun p q : ℚ × Nat => p.2 < q.2) (sigScan shells x y z 0) ∧
      (∀ p ∈ sigScan shells x y z 0, p.2 < nBasisTotal shells) ∧
      (sigScan shells x y z 0).length ≤ nBasisTotal shells ∧
      (∀ i j : Nat, j ≤ i → i < (sigScan shells x y z 0).length →
        ((sigScan shells x y z 0).getD i (0, 0)).2 *
            (((sigScan shells x y z 0).getD i (0, 0)).2 + 1) / 2 +
          ((sigScan shells x y z 0).getD j (0, 0)).2 <
          nBasisTotal shells * (nBasisTotal shells + 1) / 2) := by
  intro shells x y z
  refine ⟨sigScan_pairwise shells x y z 0, ?_, sigScan_length shells x y z 0, ?_⟩
  · intro p hp
    have := sigScan_ub shells x y z 0 p hp
    omega
  · intro i j hji hi
    have hj : j < (sigScan shells x y z 0).length := by omega
    rw [getD_pair_eq_getElem _ i hi, getD_pair_eq_getElem _ j hj]
    have hub : ((sigScan shells x y z 0)[i]).2 < nBasisTotal shells := by
      have := sigScan_ub shells x y z 0 ((sigScan shells x y z 0)[i])
        (List.getElem_mem hi)
      omega
    have hsnd : ((sigScan shells x y z 0)[j]).2 ≤
        ((sigScan shells x y z 0)[i]).2 := by
      rcases Nat.lt_or_ge j i with hlt | hge
      · exact Nat.le_of_lt
          (List.pairwise_iff_getElem.mp (sigScan_pairwise shells x y z 0)
            j i hj hi hlt)
      · have hij : i = j := by omega
        subst hij
        exact Nat.le_refl _
    exact tri_bound _ _ _ hsnd hub

/-- Witness for C10: on the concrete three-shell container, the packed offset
for the significant pair (i=1, j=0) stays below the triangle size. -/
theorem sig_indices_invariant_witness :
    ((sigScan [wShellA, wShellB, wShellC] 0 0 0 0).getD 1 (0, 0)).2 *
        (((sigScan [wShellA, wShellB, wShellC] 0 0 0 0).getD 1 (0, 0)).2 + 1) / 2 +
      ((sigScan [wShellA, wShellB, wShellC] 0 0 0 0).getD 0 (0, 0)).2 <
      nBasisTotal [wShellA, wShellB, wShellC] *
        (nBasisTotal [wShellA, wShellB, wShellC] + 1) / 2 :=
  (sig_indices_invariant [wShellA, wShellB, wShellC] 0 0 0).2.2.2 1 0
    (by decide) (by decide)

/-! ## Lemmas about the bounding box -/

theorem foldl_min_choice (l : List ℚ) :
    ∀ a : ℚ, l.foldl (fun c v => min v c) a = a ∨
      l.foldl (fun c v => min v c) a ∈ l := by
  induction l with
  | nil => intro a; left; rfl
  | cons x xs ih =>
    intro a
    rw [List.foldl_cons]
    rcases ih (min x a) with h | h
    · rcases min_choice x a with hmin | hmin
      · right; rw [h, hmin]; exact List.mem_cons_self x xs
      · left; rw [h, hmin]
    · right; exact List.mem_cons_of_mem x h

theorem foldl_min_le (l : List ℚ) :
    ∀ a : ℚ, l.foldl (fun c v => min v c) a ≤ a ∧
      ∀ v ∈ l, l.foldl (fun c v => min v c) a ≤ v := by
  induction l with
  | nil => intro a; exact ⟨le_refl a, by simp⟩
  | cons x xs ih =>
    intro a
    rw [List.foldl_cons]
    obtain ⟨h1, h2⟩ := ih (min x a)
    refine ⟨le_trans h1 (min_le_right x a), ?_⟩
    intro v hv
    rcases List.mem_cons.mp hv with rfl | hv
    · exact le_trans h1 (min_le_left v a)
    · exact h2 v hv

theorem foldl_max_choice (l : List ℚ) :
    ∀ a : ℚ, l.foldl (fun c v => max v c) a = a ∨
      l.foldl (fun c v => max v c) a ∈ l := by
  induction l with
  | nil => intro a; left; rfl
  | cons x xs ih =>
    intro a
    rw [List.foldl_cons]
    rcases ih (max x a) with h | h
    · rcases max_choice x a with hmax | hmax
      · right; rw [h, hmax]; exact List.mem_cons_self x xs
      · left; rw [h, hmax]
    · right; exact List.mem_cons_of_mem x h

theorem foldl_max_ge (l : List ℚ) :
    ∀ a : ℚ, a ≤ l.foldl (fun c v => max v c) a ∧
      ∀ v ∈ l, v ≤ l.foldl (fun c v => max v c) a := by
  induction l with
  | nil => intro a; exact ⟨le_refl a, by simp⟩
  | cons x xs ih =>
    intro a
    rw [List.foldl_cons]
    obtain ⟨h1, h2⟩ := ih (max x a)
    refine ⟨le_trans (le_max_right x a) h1, ?_⟩
    intro v hv
    rcases List.mem_cons.mp hv with rfl | hv
    · exact le_trans (le_max_left v a) h1
    · exact h2 v hv

theorem isMinOf_foldl (x : ℚ) (xs : List ℚ) :
    IsMinOf ((x :: xs).foldl (fun c v => min v c) x) (x :: xs) := by
  constructor
  · rcases foldl_min_choice (x :: xs) x with h | h
    · rw [h]; exact List.mem_cons_self x xs
    · exact h
  · exact (foldl_min_le (x :: xs) x).2

theorem isMaxOf_foldl (x : ℚ) (xs : List ℚ) :
    IsMaxOf ((x :: xs).foldl (fun c v => max v c) x) (x :: xs) := by
  constructor
  · rcases foldl_max_choice (x :: xs) x with h | h
    · rw [h]; exact List.mem_cons_self x xs
    · exact h
  · exact (foldl_max_ge (x :: xs) x).2

theorem bbFold_components (l : List (Vec3 × Vec3)) :
    ∀ acc : Vec3 × Vec3,
      (l.foldl bbStep acc).1.x =
        (l.map (fun b => b.1.x)).foldl (fun c v => min v c) acc.1.x ∧
      (l.foldl bbStep acc).1.y =
        (l.map (fun b => b.1.y)).foldl (fun c v => min v c) acc.1.y ∧
      (l.foldl bbStep acc).1.z =
        (l.map (fun b => b.1.z)).foldl (fun c v => min v c) acc.1.z ∧
      (l.foldl bbStep acc).2.x =
        (l.map (fun b => b.2.x)).foldl (fun c v => max v c) acc.2.x ∧
      (l.foldl bbStep acc).2.y =
        (l.map (fun b => b.2.y)).foldl (fun c v => max v c) acc.2.y ∧
      (l.foldl bbStep acc).2.z =
        (l.map (fun b => b.2.z)).foldl (fun c v => max v c) acc.2.z := by
  induction l with
  | nil => intro acc; exact ⟨rfl, rfl, rfl, rfl, rfl, rfl⟩
  | cons b l ih =>
    intro acc
    simp only [List.foldl_cons, List.map_cons]
    exact ih (bbStep acc b)

theorem isMinOf_shells (sh0 : Shell) (rest : List Shell)
    (g : Shell → ℚ) (r : ℚ)
    (hr : r = ((sh0 :: rest).map g).foldl (fun c v => min v c) (g sh0)) :
    IsMinOf r ((sh0 :: rest).map g) := by
  subst hr
  rw [List.map_cons]
  exact isMinOf_foldl (g sh0) (rest.map g)

theorem isMaxOf_shells (sh0 : Shell) (rest : List Shell)
    (g : Shell → ℚ) (r : ℚ)
    (hr : r = ((sh0 :: rest).map g).foldl (fun c v => max v c) (g sh0)) :
    IsMaxOf r ((sh0 :: rest).map g) := by
  subst hr
  rw [List.map_cons]
  exact isMaxOf_foldl (g sh0) (rest.map g)

/-- C9: `boundingBox` yields the degenerate origin box on an empty container,
and otherwise the componentwise min of all shell-box minima and max of all
shell-box maxima at the given threshold. -/
theorem boundingBox_spec :
    (∀ t : ℚ, boundingBox [] t = (⟨0, 0, 0⟩, ⟨0, 0, 0⟩)) ∧
    (∀ (shells : List Shell) (t : ℚ), shells ≠ [] →
      IsMinOf (boundingBox shells t).1.x
        (shells.map (fun sh => (sh.bbox t).1.x)) ∧
      IsMinOf (boundingBox shells t).1.y
        (shells.map (fun sh => (sh.bbox t).1.y)) ∧
      IsMinOf (boundingBox shells t).1.z
        (shells.map (fun sh => (sh.bbox t).1.z)) ∧
      IsMaxOf (boundingBox shells t).2.x
        (shells.map (fun sh => (sh.bbox t).2.x)) ∧
      IsMaxOf (boundingBox shells t).2.y
        (shells.map (fun sh => (sh.bbox t).2.y)) ∧
      IsMaxOf (boundingBox shells t).2.z
        (shells.map (fun sh => (sh.bbox t).2.z))) := by
  constructor
  · intro t; rfl
  · intro shells t hne
    cases shells with
    | nil => exact absurd rfl hne
    | cons sh0 rest =>
      have hcomp := bbFold_components
        ((sh0 :: rest).map (fun sh => sh.bbox t)) (sh0.bbox t)
      refine ⟨isMinOf_shells sh0 rest _ _ ?_, isMinOf_shells sh0 rest _ _ ?_,
        isMinOf_shells sh0 rest _ _ ?_, isMaxOf_shells sh0 rest _ _ ?_,
        isMaxOf_shells sh0 rest _ _ ?_, isMaxOf_shells sh0 rest _ _ ?_⟩
      · rw [show boundingBox (sh0 :: rest) t =
          ((sh0 :: rest).map (fun sh => sh.bbox t)).foldl bbStep (sh0.bbox t)
          from rfl, hcomp.1, List.map_map]
        rfl
      · rw [show boundingBox (sh0 :: rest) t =
          ((sh0 :: rest).map (fun sh => sh.bbox t)).foldl bbStep (sh0.bbox t)
          from rfl, hcomp.2.1, List.map_map]
        rfl
      · rw [show boundingBox (sh0 :: rest) t =
          ((sh0 :: rest).map (fun sh => sh.bbox t)).foldl bbStep (sh0.bbox t)
          from rfl, hcomp.2.2.1, List.map_map]
        rfl
      · rw [show boundingBox (sh0 :: rest) t =
          ((sh0 :: rest).map (fun sh => sh.bbox t)).foldl bbStep (sh0.bbox t)
          from rfl, hcomp.2.2.2.1, List.map_map]
        rfl
      · rw [show boundingBox (sh0 :: rest) t =
          ((sh0 :: rest).map (fun sh => sh.bbox t)).foldl bbStep (sh0.bbox t)
          from rfl, hcomp.2.2.2.2.1, List.map_map]
        rfl
      · rw [show boundingBox (sh0 :: rest) t =
          ((sh0 :: rest).map (fun sh => sh.bbox t)).foldl bbStep (sh0.bbox t)
          from rfl, hcomp.2.2.2.2.2, List.map_map]
        rfl

/-- Witness for C9 on a concrete two-shell container: the box minimum x is
the minimum of the shells' minima. -/
theorem boundingBox_spec_witness :
    IsMinOf (boundingBox [wShellA, wShellB] 1).1.x
      ([wShellA, wShellB].map (fun sh => (sh.bbox 1).1.x)) :=
  (boundingBox_spec.2 [wShellA, wShellB] 1 (List.cons_ne_nil _ _)).1

end IQmol
